import Mathlib

/-!
Shallow embedding of the two C libraries of this repository and proofs of the
specification claims about them.

* Library A is `c-library-binding/c-lib/mathlib.c`: status-code plus
  process-wide last-error-message convention.
* Library B is `capstone-project/c-lib/task_ops.c`: pure sentinel-value
  convention.

Modelling conventions:
* C pointers that may be `NULL` are `Option`; `none` is the null pointer.
* A C string or byte buffer is a `List Nat` of byte values; a span is the
  list together with an explicit length where the C function takes one.
* `int32_t` / `int64_t` arithmetic that can overflow is performed on `Int`
  with an explicit reduction into the two's-complement value range
  (`wrap32` / `wrap64`); `uint64_t` arithmetic is `Nat` with `% 2 ^ 64`.
* The C `%` on `int64_t` (truncated remainder) is `Int.tmod`.
-/

/-- Two's-complement reduction of an integer into the `int64_t` value range
`[-2^63, 2^63)`, the effect of C signed-64-bit wraparound. -/
def wrap64 (x : Int) : Int := (x + 2 ^ 63) % 2 ^ 64 - 2 ^ 63

/-- Two's-complement reduction of an integer into the `int32_t` value range
`[-2^31, 2^31)`, the effect of C signed-32-bit wraparound. -/
def wrap32 (x : Int) : Int := (x + 2 ^ 31) % 2 ^ 32 - 2 ^ 31

namespace MLib

/-- The process-wide mutable state of Library A (`mathlib.c`): the global
`static char last_error[256]`, initially all zero bytes, i.e. the empty
string. -/
structure LibState where
  last_error : String
deriving DecidableEq, Repr

/-- The initial state of Library A: `last_error` zero-initialised. -/
def initState : LibState := { last_error := "" }

/-- Embeds `set_error` of `mathlib.c`: `strncpy` of the message into the
255-byte-capacity global buffer (truncating longer messages). -/
def set_error (st : LibState) (message : String) : LibState :=
  { st with last_error := ⟨message.data.take 255⟩ }

/-- Embeds `factorial` of `mathlib.c` (`uint64_t factorial(uint32_t n)`):
rejects `n > 20` with error message and result 0, otherwise multiplies
`result *= i` for `i = 2..n` in `uint64_t` arithmetic. -/
def factorial (n : Nat) (st : LibState) : Nat × LibState :=
  if n > 20 then
    (0, set_error st "Factorial input too large (max 20)")
  else
    ((List.range' 2 (n - 1)).foldl (fun result i => result * i % 2 ^ 64) 1, st)

/-- The length `strlen` computes on the byte buffer `s`: the number of bytes
before the first NUL terminator. -/
def strlenB (s : List Nat) : Nat := (s.takeWhile (fun b => b != 0)).length

/-- Embeds `reverse_string` of `mathlib.c`.  `input` is the input string
(`none` = null pointer), `output_null` says whether the output pointer is
null, `output_size` is the capacity argument.  Returns the status code, the
new library state, and the bytes written into the output buffer (`none` when
nothing was written). -/
def reverse_string (input : Option (List Nat)) (output_null : Bool)
    (output_size : Nat) (st : LibState) : Int × LibState × Option (List Nat) :=
  match input with
  | none => (-1, set_error st "Null pointer passed to reverse_string", none)
  | some s =>
    if output_null then
      (-1, set_error st "Null pointer passed to reverse_string", none)
    else
      let len := strlenB s
      if output_size < len + 1 then
        (-1, set_error st "Output buffer too small for reverse_string", none)
      else
        (0, st, some ((s.takeWhile (fun b => b != 0)).reverse ++ [0]))

/-- Embeds `sum_array` of `mathlib.c`: null array gives error message and
result 0, otherwise `int32_t` accumulation over the span. -/
def sum_array (array : Option (List Int)) (st : LibState) : Int × LibState :=
  match array with
  | none => (0, set_error st "Null pointer passed to sum_array")
  | some l => (l.foldl (fun sum x => wrap32 (sum + x)) 0, st)

/-- The loop of `find_max`: `max = arr[0]`, then `if (arr[i] > max) max = arr[i]`. -/
def maxLoop (head : Int) (tail : List Int) : Int :=
  tail.foldl (fun max x => if x > max then x else max) head

/-- Embeds `find_max` of `mathlib.c`.  `array` is the input span (`none` =
null pointer); `max_value` models the out-parameter location: `none` is a null
pointer, `some v` a location currently holding `v`.  Returns the status code,
the new library state, and the final content of the out-parameter location. -/
def find_max (array : Option (List Int)) (max_value : Option Int)
    (st : LibState) : Int × LibState × Option Int :=
  match array with
  | none => (-1, set_error st "Null pointer passed to find_max", max_value)
  | some l =>
    match max_value with
    | none => (-1, set_error st "Null pointer passed to find_max", none)
    | some v =>
      match l with
      | [] => (-1, set_error st "Empty array passed to find_max", some v)
      | h :: t => (0, st, some (maxLoop h t))

end MLib

namespace TOps

/-- The `TASK_OPS_ERROR_NULL_POINTER` sentinel of `task_ops.h`. -/
def TASK_OPS_ERROR_NULL_POINTER : Int := -1

/-- Embeds `fast_factorial` of `task_ops.c` (`int64_t fast_factorial(int32_t n)`):
sentinel −1 for `n < 0 || n > 20`, otherwise `result *= i` for `i = 2..n` in
`int64_t` arithmetic. -/
def fast_factorial (n : Int) : Int :=
  if n < 0 ∨ n > 20 then -1
  else (List.range' 2 (n.toNat - 1)).foldl (fun result i => wrap64 (result * i)) 1

/-- Absolute value of the C-style truncated remainder: `|a tmod b| = |a| % |b|`.
Needed for the termination of the Euclid loop of `fast_gcd`. -/
theorem natAbs_tmod (a b : Int) : (a.tmod b).natAbs = a.natAbs % b.natAbs := by
  cases a <;> cases b <;> simp [Int.tmod] <;> rfl

/-- The `while (b != 0)` Euclid loop of `fast_gcd`, with the C `%`
(truncated remainder) on `int64_t` values. -/
def gcdLoop (a b : Int) : Int :=
  if b = 0 then a else gcdLoop b (a.tmod b)
termination_by b.natAbs
decreasing_by
  rename_i h
  rw [natAbs_tmod]
  exact Nat.mod_lt _ (by omega)

/-- Embeds `fast_gcd` of `task_ops.c`: `if (a < 0) a = -a; if (b < 0) b = -b;`
(with `int64_t` wraparound of the negation) followed by the Euclid loop. -/
def fast_gcd (a b : Int) : Int :=
  gcdLoop (if a < 0 then wrap64 (-a) else a) (if b < 0 then wrap64 (-b) else b)

/-- Embeds `fast_array_sum` of `task_ops.c`: sentinel −1 for a null array,
otherwise `int64_t` accumulation over the span. -/
def fast_array_sum (arr : Option (List Int)) : Int :=
  match arr with
  | none => TASK_OPS_ERROR_NULL_POINTER
  | some l => l.foldl (fun sum x => wrap64 (sum + x)) 0

/-- The FNV-1a 64-bit offset basis used by `fast_string_hash`. -/
def fnvBasis : Nat := 14695981039346656037

/-- The FNV-1a 64-bit prime multiplier used by `fast_string_hash`. -/
def fnvPrime : Nat := 1099511628211

/-- The loop of `fast_string_hash`: processes byte `i` while `i < len` and
`str[i] != 0`, updating `hash = (hash ^ byte) * prime` in `uint64_t`
arithmetic.  Recursion is over the remaining buffer and remaining length. -/
def hashLoop (hash : Nat) : List Nat → Nat → Nat
  | _, 0 => hash
  | [], _ + 1 => hash
  | b :: rest, n + 1 =>
    if b = 0 then hash else hashLoop ((hash ^^^ b) * fnvPrime % 2 ^ 64) rest n

/-- Embeds `fast_string_hash` of `task_ops.c`: 0 for a null pointer,
otherwise the FNV-1a loop starting from the offset basis. -/
def fast_string_hash (str : Option (List Nat)) (len : Nat) : Nat :=
  match str with
  | none => 0
  | some s => hashLoop fnvBasis s len

/-- The FNV-1a 64-bit hash as the specification describes it: starting from
the offset basis, XOR each byte into the hash and multiply by the prime, with
64-bit wraparound.  (Spec-side definition, to be compared with the embedded
`fast_string_hash`.) -/
def fnv1a_spec (bytes : List Nat) : Nat :=
  bytes.foldl (fun hash b => (hash ^^^ b) * fnvPrime % 2 ^ 64) fnvBasis

/-- The byte-comparison loop of `memcmp` as implemented by the standard
textbook (and glibc scalar) definition: compare the first `len` bytes as
unsigned chars, returning the difference of the first mismatching pair. -/
def memcmpB : List Nat → List Nat → Nat → Int
  | _, _, 0 => 0
  | [], _, _ + 1 => 0
  | _ :: _, [], _ + 1 => 0
  | x :: xs, y :: ys, n + 1 =>
    if x = y then memcmpB xs ys n else (x : Int) - (y : Int)

/-- Embeds `fast_memory_compare` of `task_ops.c`: sentinel −1 when either
pointer is null, otherwise `memcmp(a, b, len)`. -/
def fast_memory_compare (a b : Option (List Nat)) (len : Nat) : Int :=
  match a, b with
  | some x, some y => memcmpB x y len
  | _, _ => TASK_OPS_ERROR_NULL_POINTER

/-- The C idiom `temp = l[i]; l[i] = l[j]; l[j] = temp` on a list. -/
def swapIdx [Inhabited α] (l : List α) (i j : Nat) : List α :=
  (l.set i (l.getD j default)).set j (l.getD i default)

/-- The swap loop of `fast_string_reverse`: for `i` from the current value
while `i < len / 2`, swap `str[i]` with `str[len - 1 - i]`. -/
def revLoop (s : List Nat) (len i : Nat) : List Nat :=
  if i < len / 2 then revLoop (swapIdx s i (len - 1 - i)) len (i + 1) else s
termination_by len / 2 - i

/-- Embeds `fast_string_reverse` of `task_ops.c`: no-op on a null pointer or
`len <= 1`, otherwise the in-place swap loop over the first `len` bytes. -/
def fast_string_reverse (str : Option (List Nat)) (len : Nat) : Option (List Nat) :=
  match str with
  | none => none
  | some s => if len ≤ 1 then some s else some (revLoop s len 0)

/-- The partition loop of `quicksort` in `task_ops.c`:
`for (j = low; j < high; j++) if (arr[j] <= pivot) { i++; swap(arr[i], arr[j]); }`.
The counter `k` here is `i + 1` of the C code (the C `i` starts at `low - 1`,
which is not a `Nat` when `low = 0`); the C swap of `arr[i]` and `arr[j]`
after `i++` is the swap of `arr[k]` and `arr[j]` before `k` is incremented.
Returns the array and the final `k = i + 1`, the pivot position `pi`. -/
def lomutoLoop (arr : List Int) (pivot : Int) (k j high : Nat) : List Int × Nat :=
  if j < high then
    if arr.getD j default ≤ pivot then
      lomutoLoop (swapIdx arr k j) pivot (k + 1) (j + 1) high
    else
      lomutoLoop arr pivot k (j + 1) high
  else (arr, k)
termination_by high - j

/-- The partition phase of `quicksort`: `pivot = arr[high]`, the partition
loop, then the final swap of `arr[i + 1]` with `arr[high]`; returns the array
and the pivot index `pi = i + 1`. -/
def lomutoPartition (arr : List Int) (low high : Nat) : List Int × Nat :=
  let pivot := arr.getD high default
  let p := lomutoLoop arr pivot low low high
  (swapIdx p.1 p.2 high, p.2)

/-- The final `k` of the partition loop is at least the initial `k`. -/
theorem lomutoLoop_le_snd (arr : List Int) (pivot : Int) (k j high : Nat) :
    k ≤ (lomutoLoop arr pivot k j high).2 := by
  induction arr, pivot, k, j, high using lomutoLoop.induct with
  | case1 arr pivot k j high h hle ih =>
    rw [lomutoLoop, if_pos h, if_pos hle]
    omega
  | case2 arr pivot k j high h hle ih =>
    rw [lomutoLoop, if_pos h, if_neg hle]
    exact ih
  | case3 arr pivot k j high h =>
    rw [lomutoLoop, if_neg h]

/-- The final `k` of the partition loop stays at most `high`, provided it
starts at most `j`. -/
theorem lomutoLoop_snd_le (arr : List Int) (pivot : Int) (k j high : Nat)
    (hkj : k ≤ j) (hjh : j ≤ high) : (lomutoLoop arr pivot k j high).2 ≤ high := by
  induction arr, pivot, k, j, high using lomutoLoop.induct with
  | case1 arr pivot k j high h hle ih =>
    rw [lomutoLoop, if_pos h, if_pos hle]
    exact ih (by omega) (by omega)
  | case2 arr pivot k j high h hle ih =>
    rw [lomutoLoop, if_pos h, if_neg hle]
    exact ih (by omega) (by omega)
  | case3 arr pivot k j high h =>
    rw [lomutoLoop, if_neg h]
    omega

/-- The recursion of `quicksort(arr, low, high)` in `task_ops.c`.  The C
guard is `low < high` on `int` indices; the additional `0 ≤ low` conjunct is
vacuous on every call the library can make (the root call has `low = 0` and
recursive calls only increase `low`; a call with `low < 0 < high` would index
out of bounds in C), and makes the recursion well-founded for arbitrary
arguments. -/
def quicksortAux (arr : List Int) (low high : Int) : List Int :=
  if h : 0 ≤ low ∧ low < high then
    let p := lomutoPartition arr low.toNat high.toNat
    quicksortAux (quicksortAux p.1 low ((p.2 : Int) - 1)) ((p.2 : Int) + 1) high
  else arr
termination_by (high - low).toNat
decreasing_by
  · have h2 : (lomutoPartition arr low.toNat high.toNat).2 ≤ high.toNat :=
      lomutoLoop_snd_le _ _ _ _ _ (le_refl _) (by omega)
    omega
  · have h1 : low.toNat ≤ (lomutoPartition arr low.toNat high.toNat).2 :=
      lomutoLoop_le_snd ..
    omega

/-- Embeds `fast_array_sort` of `task_ops.c`: no-op on a null pointer or
`len <= 1`, otherwise `quicksort(arr, 0, (int)len - 1)`.  The `size_t`
length is narrowed to `int` by the cast, modelled as the 32-bit
two's-complement reduction `wrap32`; the subsequent `- 1` is `int`
arithmetic, so it is wrapped as well (it only overflows when the cast
yields `INT_MIN`). -/
def fast_array_sort (arr : Option (List Int)) : Option (List Int) :=
  match arr with
  | none => none
  | some l =>
    if l.length ≤ 1 then some l
    else some (quicksortAux l 0 (wrap32 (wrap32 (l.length : Int) - 1)))

/-- Spec-side predicate: `l` is non-decreasing on the index range
`[low, high]` (indices read as integers; out-of-range indices are
unconstrained). -/
def sortedRange (l : List Int) (low high : Int) : Prop :=
  ∀ i j : Nat, low ≤ (i : Int) → i ≤ j → (j : Int) ≤ high →
    l.getD i default ≤ l.getD j default

end TOps

/-! ## Helper lemmas -/

namespace MLib

/-- The multiplication loop of Library A's `factorial` computes the exact
mathematical factorial for all inputs the guard admits. -/
theorem factLoop_eq : ∀ n, n < 21 →
    (List.range' 2 (n - 1)).foldl (fun result i => result * i % 2 ^ 64) 1 = n.factorial := by
  decide

end MLib

namespace TOps

/-- The multiplication loop of Library B's `fast_factorial` computes the
exact mathematical factorial for all inputs the guard admits. -/
theorem fastFactLoop_eq : ∀ n, n < 21 →
    (List.range' 2 (n - 1)).foldl (fun result i => wrap64 (result * i)) 1 = (n.factorial : Int) := by
  decide

/-- The reduction `wrap64` is the identity on the `int64_t` value range. -/
theorem wrap64_eq_self {x : Int} (h1 : -(2 ^ 63) ≤ x) (h2 : x < 2 ^ 63) :
    wrap64 x = x := by
  unfold wrap64
  omega

/-- The Euclid loop on nonnegative (natural-number) arguments computes the
greatest common divisor. -/
theorem gcdLoop_eq_gcd (m n : Nat) : gcdLoop (m : Int) (n : Int) = (Nat.gcd m n : Int) := by
  induction n using Nat.strong_induction_on generalizing m with
  | _ n ih =>
    rw [gcdLoop]
    rcases Nat.eq_zero_or_pos n with h | h
    · subst h
      simp
    · rw [if_neg (by omega)]
      rw [← Int.ofNat_tmod]
      rw [ih (m % n) (Nat.mod_lt _ h)]
      rw [Nat.gcd_comm n (m % n), ← Nat.gcd_rec n m, Nat.gcd_comm n m]

end TOps

/-! ## Claim theorems: factorial (C1) and gcd (C4) -/

/-- C1: Library A's `factorial` returns `n!` exactly for `0 ≤ n ≤ 20` and
returns 0 while recording an error message for `n > 20`; Library B's
`fast_factorial` returns `n!` for `0 ≤ n ≤ 20` and the sentinel −1 for
`n < 0` or `n > 20`; `factorial(0) = 1`, `factorial(5) = 120`, and
`factorial(21)` signals the error in both libraries. -/
theorem C1_factorial_contract :
    (∀ (st : MLib.LibState) (n : Nat), n ≤ 20 →
        (MLib.factorial n st).1 = n.factorial ∧ (MLib.factorial n st).2 = st) ∧
    (∀ (st : MLib.LibState) (n : Nat), n > 20 →
        (MLib.factorial n st).1 = 0 ∧ (MLib.factorial n st).2.last_error ≠ "") ∧
    (∀ n : Int, 0 ≤ n → n ≤ 20 → TOps.fast_factorial n = (n.toNat.factorial : Int)) ∧
    (∀ n : Int, n < 0 ∨ n > 20 → TOps.fast_factorial n = -1) ∧
    (∀ st, (MLib.factorial 0 st).1 = 1) ∧ (∀ st, (MLib.factorial 5 st).1 = 120) ∧
    TOps.fast_factorial 0 = 1 ∧ TOps.fast_factorial 5 = 120 ∧
    (∀ st, (MLib.factorial 21 st).1 = 0 ∧ (MLib.factorial 21 st).2.last_error ≠ "") ∧
    TOps.fast_factorial 21 = -1 := by
  refine ⟨?_, ?_, ?_, ?_, ?_, ?_, by decide, by decide, ?_, by decide⟩
  · intro st n h
    rw [MLib.factorial, if_neg (by omega)]
    exact ⟨MLib.factLoop_eq n (by omega), rfl⟩
  · intro st n h
    rw [MLib.factorial, if_pos (by omega)]
    exact ⟨rfl, by simp [MLib.set_error]⟩
  · intro n h0 h20
    rw [TOps.fast_factorial, if_neg (by omega)]
    exact TOps.fastFactLoop_eq n.toNat (by omega)
  · intro n h
    rw [TOps.fast_factorial, if_pos (by omega)]
  · intro st
    rw [MLib.factorial, if_neg (by omega)]
    rfl
  · intro st
    rw [MLib.factorial, if_neg (by omega)]
    rfl
  · intro st
    rw [MLib.factorial, if_pos (by omega)]
    exact ⟨rfl, by simp [MLib.set_error]⟩

/-- Closed-instance witness for `C1_factorial_contract`. -/
theorem C1_factorial_contract_witness :
    (MLib.factorial 5 MLib.initState).1 = Nat.factorial 5 ∧
    TOps.fast_factorial 5 = ((5 : Nat).factorial : Int) ∧
    TOps.fast_factorial (-7) = -1 ∧
    (MLib.factorial 25 MLib.initState).1 = 0 :=
  ⟨(C1_factorial_contract.1 MLib.initState 5 (by decide)).1,
   C1_factorial_contract.2.2.1 5 (by decide) (by decide),
   C1_factorial_contract.2.2.2.1 (-7) (Or.inl (by decide)),
   (C1_factorial_contract.2.1 MLib.initState 25 (by decide)).1⟩

/-- C4 counterexample: at `a = -2^63` (the `int64_t` minimum, whose negation
wraps to itself) and `b = 0`, `fast_gcd` returns `-2^63`, not the
greatest common divisor `2^63` of the absolute values. -/
theorem C4_counterexample :
    TOps.fast_gcd (-(2 ^ 63)) 0 = -(2 ^ 63) ∧
    ((-(2 ^ 63) : Int).gcd 0 : Int) = 2 ^ 63 ∧
    TOps.fast_gcd (-(2 ^ 63)) 0 ≠ ((-(2 ^ 63) : Int).gcd 0 : Int) := by
  refine ⟨?_, by decide, ?_⟩ <;>
    simp [TOps.fast_gcd, TOps.gcdLoop, wrap64, Int.gcd]

/-- C4 (amended): for every pair of `int64_t` values other than the minimum
`-2^63`, `fast_gcd` computes the greatest common divisor of the absolute
values, with `gcd(0, 0) = 0`, `gcd(54, 24) = 6`, `gcd(-8, 12) = 4`. -/
theorem C4_gcd_spec :
    (∀ a b : Int, -(2 ^ 63) < a → a < 2 ^ 63 → -(2 ^ 63) < b → b < 2 ^ 63 →
        TOps.fast_gcd a b = (a.gcd b : Int)) ∧
    TOps.fast_gcd 0 0 = 0 ∧
    TOps.fast_gcd 54 24 = 6 ∧
    TOps.fast_gcd (-8) 12 = 4 := by
  have key : ∀ a b : Int, -(2 ^ 63) < a → a < 2 ^ 63 → -(2 ^ 63) < b → b < 2 ^ 63 →
      TOps.fast_gcd a b = (a.gcd b : Int) := by
    intro a b ha1 ha2 hb1 hb2
    have hna : (if a < 0 then wrap64 (-a) else a) = (a.natAbs : Int) := by
      split
      · rw [TOps.wrap64_eq_self (by omega) (by omega)]
        omega
      · omega
    have hnb : (if b < 0 then wrap64 (-b) else b) = (b.natAbs : Int) := by
      split
      · rw [TOps.wrap64_eq_self (by omega) (by omega)]
        omega
      · omega
    rw [TOps.fast_gcd, hna, hnb, TOps.gcdLoop_eq_gcd]
    rfl
  exact ⟨key, by rw [key 0 0] <;> decide, by rw [key 54 24] <;> decide,
    by rw [key (-8) 12] <;> decide⟩

/-- Closed-instance witness for `C4_gcd_spec`. -/
theorem C4_gcd_spec_witness :
    TOps.fast_gcd 54 24 = ((54 : Int).gcd 24 : Int) :=
  C4_gcd_spec.1 54 24 (by decide) (by decide) (by decide) (by decide)

/-! ## Claim theorems: hash (C5, C9) -/

namespace TOps

/-- The hash loop equals the FNV-1a fold over the processed prefix: the bytes
up to `len` or up to the first NUL, whichever comes first. -/
theorem hashLoop_eq_foldl : ∀ (s : List Nat) (len : Nat) (h : Nat),
    hashLoop h s len =
      ((s.take len).takeWhile (fun b => b != 0)).foldl
        (fun hash b => (hash ^^^ b) * fnvPrime % 2 ^ 64) h := by
  intro s
  induction s with
  | nil =>
    intro len h
    cases len <;> rfl
  | cons b rest ih =>
    intro len h
    cases len with
    | zero => rfl
    | succ n =>
      by_cases hb : b = 0
      · subst hb
        rw [hashLoop]
        simp
      · rw [hashLoop, if_neg hb]
        rw [ih n]
        simp [List.takeWhile_cons, hb]

end TOps

/-- C5: for every non-null byte span, `fast_string_hash` equals the 64-bit
FNV-1a hash (offset basis 14695981039346656037, prime 1099511628211; per byte
XOR then multiply, with 64-bit wraparound) of the bytes up to `len` or up to
the first embedded NUL, whichever comes first; a null input yields 0. -/
theorem C5_hash_is_fnv1a :
    (∀ (s : List Nat) (len : Nat),
        TOps.fast_string_hash (some s) len =
          TOps.fnv1a_spec ((s.take len).takeWhile (fun b => b != 0))) ∧
    (∀ len : Nat, TOps.fast_string_hash none len = 0) ∧
    TOps.fnvBasis = 14695981039346656037 ∧
    TOps.fnvPrime = 1099511628211 := by
  refine ⟨?_, fun _ => rfl, rfl, rfl⟩
  intro s len
  exact TOps.hashLoop_eq_foldl s len TOps.fnvBasis

/-- C9: a non-null span of length 0, an empty buffer, or a buffer whose first
byte is NUL all hash to the FNV offset basis, which is nonzero — hence
distinguishable from the null-input result 0. -/
theorem C9_hash_empty_nonzero :
    (∀ s : List Nat, TOps.fast_string_hash (some s) 0 = TOps.fnvBasis) ∧
    (∀ len : Nat, TOps.fast_string_hash (some []) len = TOps.fnvBasis) ∧
    (∀ (s : List Nat) (len : Nat), s.head? = some 0 →
        TOps.fast_string_hash (some s) len = TOps.fnvBasis) ∧
    TOps.fnvBasis ≠ 0 ∧
    (∀ len : Nat, TOps.fast_string_hash none len = 0) := by
  refine ⟨?_, ?_, ?_, by decide, fun _ => rfl⟩
  · intro s
    cases s <;> rfl
  · intro len
    cases len <;> rfl
  · intro s len hs
    match s, hs with
    | 0 :: rest, _ =>
      cases len with
      | zero => rfl
      | succ n =>
        show TOps.hashLoop TOps.fnvBasis (0 :: rest) (n + 1) = TOps.fnvBasis
        rw [TOps.hashLoop, if_pos rfl]

/-- Closed-instance witness for `C9_hash_empty_nonzero`. -/
theorem C9_hash_empty_nonzero_witness :
    TOps.fast_string_hash (some [0, 7, 7]) 3 = TOps.fnvBasis :=
  C9_hash_empty_nonzero.2.2.1 [0, 7, 7] 3 rfl

/-! ## Claim theorems: sum (C6) -/

/-- Folding the 64-bit wrapped addition equals the wrap of the exact sum. -/
theorem foldl_wrap64_sum : ∀ (l : List Int) (a : Int),
    l.foldl (fun sum x => wrap64 (sum + x)) (wrap64 a) = wrap64 (a + l.sum) := by
  intro l
  induction l with
  | nil => simp
  | cons x t ih =>
    intro a
    have hc : wrap64 (wrap64 a + x) = wrap64 (a + x) := by
      unfold wrap64
      omega
    calc (x :: t).foldl (fun sum x => wrap64 (sum + x)) (wrap64 a)
        = t.foldl (fun sum x => wrap64 (sum + x)) (wrap64 (a + x)) := by
          simp [hc]
      _ = wrap64 (a + x + t.sum) := ih (a + x)
      _ = wrap64 (a + (x :: t).sum) := by
          rw [List.sum_cons]
          ring_nf

/-- Folding the 32-bit wrapped addition equals the wrap of the exact sum. -/
theorem foldl_wrap32_sum : ∀ (l : List Int) (a : Int),
    l.foldl (fun sum x => wrap32 (sum + x)) (wrap32 a) = wrap32 (a + l.sum) := by
  intro l
  induction l with
  | nil => simp
  | cons x t ih =>
    intro a
    have hc : wrap32 (wrap32 a + x) = wrap32 (a + x) := by
      unfold wrap32
      omega
    calc (x :: t).foldl (fun sum x => wrap32 (sum + x)) (wrap32 a)
        = t.foldl (fun sum x => wrap32 (sum + x)) (wrap32 (a + x)) := by
          simp [hc]
      _ = wrap32 (a + x + t.sum) := ih (a + x)
      _ = wrap32 (a + (x :: t).sum) := by
          rw [List.sum_cons]
          ring_nf

/-- C6 counterexample: for the empty non-null span, Library B's
`fast_array_sum` returns 0, not a negative sentinel. -/
theorem C6_counterexample :
    TOps.fast_array_sum (some ([] : List Int)) = 0 ∧
    ¬ TOps.fast_array_sum (some ([] : List Int)) < 0 := by
  decide

/-- C6 (amended): Library B's `fast_array_sum` yields the sentinel −1 only
for null input and yields 0 for an empty non-null span, while Library A's
`sum_array` yields 0 for empty or null input; on every non-null span the
result is the linear accumulation of the elements in the library's integer
width; `sum([1,2,3,4,5]) = 15` in both. -/
theorem C6_sum_spec :
    TOps.fast_array_sum none = -1 ∧
    TOps.fast_array_sum (some []) = 0 ∧
    (∀ l : List Int, TOps.fast_array_sum (some l) = wrap64 l.sum) ∧
    TOps.fast_array_sum (some [1, 2, 3, 4, 5]) = 15 ∧
    (∀ st, (MLib.sum_array none st).1 = 0) ∧
    (∀ st, (MLib.sum_array (some []) st).1 = 0) ∧
    (∀ (l : List Int) (st), (MLib.sum_array (some l) st).1 = wrap32 l.sum) ∧
    (∀ st, (MLib.sum_array (some [1, 2, 3, 4, 5]) st).1 = 15) := by
  have h64 : ∀ l : List Int, TOps.fast_array_sum (some l) = wrap64 l.sum := by
    intro l
    have h0 : (0 : Int) = wrap64 0 := by decide
    show l.foldl (fun sum x => wrap64 (sum + x)) 0 = wrap64 l.sum
    rw [h0, foldl_wrap64_sum]
    simp
  have h32 : ∀ (l : List Int) (st), (MLib.sum_array (some l) st).1 = wrap32 l.sum := by
    intro l st
    have h0 : (0 : Int) = wrap32 0 := by decide
    show l.foldl (fun sum x => wrap32 (sum + x)) 0 = wrap32 l.sum
    rw [h0, foldl_wrap32_sum]
    simp
  exact ⟨rfl, rfl, h64, by rw [h64]; decide, fun st => rfl, fun st => h32 [] st,
    h32, fun st => by rw [h32]; decide⟩

/-! ## Claim theorems: memory compare (C7) -/

namespace TOps

/-- Comparing a span with itself gives 0. -/
theorem memcmpB_self : ∀ (a : List Nat) (n : Nat), memcmpB a a n = 0 := by
  intro a
  induction a with
  | nil => intro n; cases n <;> rfl
  | cons x xs ih =>
    intro n
    cases n with
    | zero => rfl
    | succ m =>
      show memcmpB (x :: xs) (x :: xs) (m + 1) = 0
      rw [memcmpB, if_pos rfl]
      exact ih m

/-- Comparing the swapped spans gives the negation. -/
theorem memcmpB_antisymm : ∀ (a b : List Nat) (n : Nat),
    memcmpB a b n = -memcmpB b a n := by
  intro a
  induction a with
  | nil =>
    intro b n
    cases b <;> cases n <;> rfl
  | cons x xs ih =>
    intro b n
    cases b with
    | nil => cases n <;> rfl
    | cons y ys =>
      cases n with
      | zero => rfl
      | succ m =>
        show memcmpB (x :: xs) (y :: ys) (m + 1) = -memcmpB (y :: ys) (x :: xs) (m + 1)
        rw [memcmpB, memcmpB]
        by_cases hxy : x = y
        · rw [if_pos hxy, if_pos hxy.symm]
          exact ih ys m
        · rw [if_neg hxy, if_neg (fun h => hxy h.symm)]
          omega

/-- Over a valid span, `memcmp` returns 0 exactly when the first `n` bytes
agree. -/
theorem memcmpB_eq_zero_iff : ∀ (a b : List Nat) (n : Nat),
    n ≤ a.length → n ≤ b.length → (memcmpB a b n = 0 ↔ a.take n = b.take n) := by
  intro a
  induction a with
  | nil =>
    intro b n ha hb
    have : n = 0 := by simpa using ha
    subst this
    simp [memcmpB]
  | cons x xs ih =>
    intro b n ha hb
    cases n with
    | zero => simp [memcmpB]
    | succ m =>
      cases b with
      | nil => simp at hb
      | cons y ys =>
        show memcmpB (x :: xs) (y :: ys) (m + 1) = 0 ↔ _
        rw [memcmpB]
        by_cases hxy : x = y
        · subst hxy
          rw [if_pos rfl]
          simp only [List.take_succ_cons, List.cons.injEq, true_and]
          exact ih ys m (by simpa using ha) (by simpa using hb)
        · rw [if_neg hxy]
          simp only [List.take_succ_cons, List.cons.injEq]
          constructor
          · intro h
            omega
          · intro h
            exact absurd h.1 hxy

end TOps

/-- C7 counterexample: the ordering result of comparing the one-byte spans
`[0]` and `[1]` is −1, the very value returned for a null pointer — the
sentinel is not distinct from every ordering result. -/
theorem C7_counterexample :
    TOps.fast_memory_compare (some [0]) (some [1]) 1 = -1 ∧
    TOps.fast_memory_compare none (some [1]) 1 = -1 := by
  decide

/-- C7 (amended): with both pointers non-null, `fast_memory_compare` is a
three-way ordering over the first `len` bytes — 0 on equal prefixes (hence
reflexive) and antisymmetric in sign — and a null pointer yields the negative
sentinel −1; the sentinel, however, coincides with an achievable ordering
result, e.g. `compare([0], [1], 1) = -1`. -/
theorem C7_compare_spec :
    (∀ (a : List Nat) (len : Nat), TOps.fast_memory_compare (some a) (some a) len = 0) ∧
    (∀ (a b : List Nat) (len : Nat),
        TOps.fast_memory_compare (some a) (some b) len =
          -TOps.fast_memory_compare (some b) (some a) len) ∧
    (∀ (a b : List Nat) (len : Nat), len ≤ a.length → len ≤ b.length →
        (TOps.fast_memory_compare (some a) (some b) len = 0 ↔
          a.take len = b.take len)) ∧
    (∀ (b : Option (List Nat)) (len : Nat), TOps.fast_memory_compare none b len = -1) ∧
    (∀ (a : Option (List Nat)) (len : Nat), TOps.fast_memory_compare a none len = -1) ∧
    TOps.fast_memory_compare (some [0]) (some [1]) 1 = -1 :=
  ⟨fun a len => TOps.memcmpB_self a len,
   fun a b len => TOps.memcmpB_antisymm a b len,
   fun a b len ha hb => TOps.memcmpB_eq_zero_iff a b len ha hb,
   fun b len => by cases b <;> rfl,
   fun a len => by cases a <;> rfl,
   by decide⟩

/-- Closed-instance witness for `C7_compare_spec`. -/
theorem C7_compare_spec_witness :
    TOps.fast_memory_compare (some [1, 2]) (some [1, 3]) 2 = 0 ↔
      [1, 2].take 2 = [1, 3].take 2 :=
  C7_compare_spec.2.2.1 [1, 2] [1, 3] 2 (by decide) (by decide)

/-! ## Claim theorems: reverse_string (C2) -/

/-- C2: `reverse_string` returns −1 with a non-empty last-error message
exactly when the input is null, the output is null, or the capacity is less
than `strlen(input) + 1`; otherwise it writes the reversed input bytes plus a
NUL terminator and returns 0.  `reverse_string("hello", buf, 3)` fails with a
non-empty message, and a successful call on `"hello"` yields `"olleh"`. -/
theorem C2_reverse_string_contract :
    (∀ (input : Option (List Nat)) (onull : Bool) (sz : Nat) (st : MLib.LibState),
        ((MLib.reverse_string input onull sz st).1 = -1 ∧
            (MLib.reverse_string input onull sz st).2.1.last_error ≠ "") ↔
          (input = none ∨ onull = true ∨ sz < MLib.strlenB (input.getD []) + 1)) ∧
    (∀ (s : List Nat) (sz : Nat) (st : MLib.LibState), MLib.strlenB s + 1 ≤ sz →
        MLib.reverse_string (some s) false sz st =
          (0, st, some ((s.takeWhile (fun b => b != 0)).reverse ++ [0]))) ∧
    ((MLib.reverse_string (some [104, 101, 108, 108, 111]) false 3 MLib.initState).1 = -1 ∧
      (MLib.reverse_string (some [104, 101, 108, 108, 111]) false 3
          MLib.initState).2.1.last_error ≠ "") ∧
    (MLib.reverse_string (some [104, 101, 108, 108, 111]) false 6 MLib.initState).2.2 =
      some [111, 108, 108, 101, 104, 0] := by
  have hmsg1 : ∀ st : MLib.LibState,
      (MLib.set_error st "Null pointer passed to reverse_string").last_error ≠ "" := by
    intro st
    simp [MLib.set_error]
  have hmsg2 : ∀ st : MLib.LibState,
      (MLib.set_error st "Output buffer too small for reverse_string").last_error ≠ "" := by
    intro st
    simp [MLib.set_error]
  refine ⟨?_, ?_, by decide, by decide⟩
  · intro input onull sz st
    match input with
    | none => simp [MLib.reverse_string, hmsg1 st]
    | some s =>
      cases onull with
      | true => simp [MLib.reverse_string, hmsg1 st]
      | false =>
        by_cases hsz : sz < MLib.strlenB s + 1
        · rw [MLib.reverse_string]
          simp only [Bool.false_eq_true, if_false, Option.getD_some]
          rw [if_pos hsz]
          simp [hmsg2 st, hsz]
        · rw [MLib.reverse_string]
          simp only [Bool.false_eq_true, if_false, Option.getD_some]
          rw [if_neg hsz]
          simp [hsz]
  · intro s sz st h
    rw [MLib.reverse_string]
    simp only [Bool.false_eq_true, if_false]
    rw [if_neg (by omega)]

/-- Closed-instance witness for `C2_reverse_string_contract`. -/
theorem C2_reverse_string_contract_witness :
    MLib.reverse_string (some [104, 101, 108, 108, 111]) false 6 MLib.initState =
      (0, MLib.initState,
        some (([104, 101, 108, 108, 111].takeWhile (fun b => b != 0)).reverse ++ [0])) :=
  C2_reverse_string_contract.2.1 [104, 101, 108, 108, 111] 6 MLib.initState (by decide)

/-! ## Claim theorems: find_max (C10) -/

namespace MLib

/-- The accumulator never decreases through the `find_max` loop. -/
theorem le_maxLoop_self : ∀ (t : List Int) (h : Int), h ≤ maxLoop h t := by
  intro t
  induction t with
  | nil => intro h; exact le_refl h
  | cons y t ih =>
    intro h
    have step : h ≤ if y > h then y else h := by
      split <;> omega
    exact le_trans step (ih _)

/-- The `find_max` loop returns a member of the span. -/
theorem maxLoop_mem : ∀ (t : List Int) (h : Int), maxLoop h t ∈ h :: t := by
  intro t
  induction t with
  | nil => intro h; exact List.mem_singleton.mpr rfl
  | cons y t ih =>
    intro h
    have : maxLoop h (y :: t) = maxLoop (if y > h then y else h) t := rfl
    rw [this]
    have hmem := ih (if y > h then y else h)
    rcases List.mem_cons.mp hmem with heq | htl
    · rw [heq]
      split
      · exact List.mem_cons_of_mem _ (List.mem_cons_self _ _)
      · exact List.mem_cons_self _ _
    · exact List.mem_cons_of_mem _ (List.mem_cons_of_mem _ htl)

/-- The `find_max` loop returns an upper bound of the span. -/
theorem maxLoop_le : ∀ (t : List Int) (h : Int) (x : Int),
    x ∈ h :: t → x ≤ maxLoop h t := by
  intro t
  induction t with
  | nil =>
    intro h x hx
    rw [List.mem_singleton.mp hx]
    exact le_refl _
  | cons y t ih =>
    intro h x hx
    have : maxLoop h (y :: t) = maxLoop (if y > h then y else h) t := rfl
    rw [this]
    rcases List.mem_cons.mp hx with heq | htl
    · subst heq
      have step : x ≤ if y > x then y else x := by split <;> omega
      exact le_trans step (le_maxLoop_self t _)
    · rcases List.mem_cons.mp htl with heq | htl2
      · subst heq
        have step : x ≤ if x > h then x else h := by split <;> omega
        exact le_trans step (le_maxLoop_self t _)
      · exact ih _ x (List.mem_cons_of_mem _ htl2)

end MLib

/-- C10: `find_max` returns −1 exactly on a null array, a null out-parameter,
or an empty span, and then leaves the caller's out-parameter location
unchanged; on success it returns 0 and writes exactly the maximum element of
the span through the out-parameter. -/
theorem C10_find_max_frame :
    (∀ (array : Option (List Int)) (mv : Option Int) (st : MLib.LibState),
        ((MLib.find_max array mv st).1 = -1 ↔
          array = none ∨ mv = none ∨ array = some []) ∧
        ((MLib.find_max array mv st).1 = -1 → (MLib.find_max array mv st).2.2 = mv)) ∧
    (∀ (h : Int) (t : List Int) (v : Int) (st : MLib.LibState),
        (MLib.find_max (some (h :: t)) (some v) st).1 = 0 ∧
        ∃ m, (MLib.find_max (some (h :: t)) (some v) st).2.2 = some m ∧
          m ∈ h :: t ∧ ∀ x ∈ h :: t, x ≤ m) := by
  constructor
  · intro array mv st
    match array, mv with
    | none, mv => simp [MLib.find_max]
    | some l, none => simp [MLib.find_max]
    | some [], some v => simp [MLib.find_max]
    | some (h :: t), some v =>
      refine ⟨?_, ?_⟩
      · simp [MLib.find_max]
      · intro hbad
        exact absurd hbad (by simp [MLib.find_max])
  · intro h t v st
    exact ⟨rfl, MLib.maxLoop h t, rfl, MLib.maxLoop_mem t h, fun x hx => MLib.maxLoop_le t h x hx⟩

/-- Closed-instance witness for `C10_find_max_frame`. -/
theorem C10_find_max_frame_witness :
    (MLib.find_max (some []) (some 42) MLib.initState).2.2 = some 42 ∧
    (MLib.find_max none (some 7) MLib.initState).2.2 = some 7 :=
  ⟨(C10_find_max_frame.1 (some []) (some 42) MLib.initState).2 (by decide),
   (C10_find_max_frame.1 none (some 7) MLib.initState).2 (by decide)⟩

/-! ## Claim theorems: in-place reverse (C8) -/

namespace TOps

/-- Swapping two positions preserves the length. -/
theorem swapIdx_length [Inhabited α] (l : List α) (i j : Nat) :
    (swapIdx l i j).length = l.length := by
  simp [swapIdx]

/-- Entry-wise description of a swap of two in-bounds positions. -/
theorem swapIdx_getElem? [Inhabited α] (l : List α) (i j k : Nat)
    (hi : i < l.length) (hj : j < l.length) :
    (swapIdx l i j)[k]? = if k = j then l[i]? else if k = i then l[j]? else l[k]? := by
  unfold swapIdx
  by_cases hkj : k = j
  · subst hkj
    rw [if_pos rfl]
    rw [List.getElem?_set]
    rw [if_pos rfl, if_pos (by simpa using hj)]
    rw [List.getD_eq_getElem?_getD, List.getElem?_eq_getElem hi]
    rfl
  · rw [if_neg hkj]
    rw [List.getElem?_set, if_neg (fun h => hkj h.symm)]
    by_cases hki : k = i
    · subst hki
      rw [if_pos rfl]
      rw [List.getElem?_set, if_pos rfl, if_pos hi]
      rw [List.getD_eq_getElem?_getD, List.getElem?_eq_getElem hj]
      rfl
    · rw [if_neg hki]
      rw [List.getElem?_set, if_neg (fun h => hki h.symm)]

/-- The reverse loop preserves the length. -/
theorem revLoop_length : ∀ (s : List Nat) (len i : Nat),
    (revLoop s len i).length = s.length := by
  intro s len i
  induction s, len, i using revLoop.induct with
  | case1 s len i hlt ih =>
    rw [revLoop, if_pos hlt]
    rw [ih, swapIdx_length]
  | case2 s len i hlt =>
    rw [revLoop, if_neg hlt]

/-- Entry-wise description of the reverse loop: positions in the not yet
processed middle `[i, len - i)` end up holding the mirrored entry, all other
positions are unchanged. -/
theorem revLoop_getElem? : ∀ (s : List Nat) (len i : Nat), len ≤ s.length →
    ∀ k, (revLoop s len i)[k]? =
      if i ≤ k ∧ k < len - i then s[len - 1 - k]? else s[k]? := by
  intro s len i
  induction s, len, i using revLoop.induct with
  | case1 s len i hlt ih =>
    intro hlen k
    rw [revLoop, if_pos hlt]
    have hslen : len ≤ (swapIdx s i (len - 1 - i)).length := by
      rw [swapIdx_length]
      exact hlen
    rw [ih hslen k]
    have hi : i < s.length := by omega
    have hj : len - 1 - i < s.length := by omega
    by_cases h1 : i + 1 ≤ k ∧ k < len - (i + 1)
    · rw [if_pos h1]
      rw [swapIdx_getElem? s i (len - 1 - i) (len - 1 - k) hi hj]
      rw [if_neg (by omega), if_neg (by omega), if_pos (by omega)]
    · rw [if_neg h1]
      rw [swapIdx_getElem? s i (len - 1 - i) k hi hj]
      by_cases hk1 : k = len - 1 - i
      · rw [if_pos hk1, if_pos (by omega)]
        congr 1
        omega
      · rw [if_neg hk1]
        by_cases hk2 : k = i
        · rw [if_pos hk2, if_pos (by omega)]
          congr 1
          omega
        · rw [if_neg hk2, if_neg (by omega)]
  | case2 s len i hlt =>
    intro hlen k
    rw [revLoop, if_neg hlt]
    by_cases h : i ≤ k ∧ k < len - i
    · rw [if_pos h]
      congr 1
      omega
    · rw [if_neg h]

end TOps

/-- C8: applying `fast_string_reverse` twice over the same buffer and length
restores the original contents (the in-place reverse is an involution on the
first `len` bytes), and `len ≤ 1` (in particular zero- or one-byte buffers)
is a no-op. -/
theorem C8_reverse_involution :
    (∀ (s : List Nat) (len : Nat), len ≤ s.length →
        TOps.fast_string_reverse (TOps.fast_string_reverse (some s) len) len = some s) ∧
    (∀ (s : List Nat) (len : Nat), len ≤ 1 →
        TOps.fast_string_reverse (some s) len = some s) ∧
    (∀ len : Nat, TOps.fast_string_reverse none len = none) := by
  refine ⟨?_, ?_, fun len => rfl⟩
  · intro s len hlen
    by_cases hl : len ≤ 1
    · simp [TOps.fast_string_reverse, hl]
    · have hlen2 : len ≤ (TOps.revLoop s len 0).length := by
        rw [TOps.revLoop_length]
        exact hlen
      have hinner : TOps.fast_string_reverse (some s) len =
          some (TOps.revLoop s len 0) := by
        simp [TOps.fast_string_reverse, hl]
      rw [hinner]
      have houter : TOps.fast_string_reverse (some (TOps.revLoop s len 0)) len =
          some (TOps.revLoop (TOps.revLoop s len 0) len 0) := by
        simp [TOps.fast_string_reverse, hl]
      rw [houter]
      congr 1
      apply List.ext_getElem?
      intro k
      rw [TOps.revLoop_getElem? (TOps.revLoop s len 0) len 0 hlen2 k]
      by_cases hk : k < len
      · rw [if_pos ⟨Nat.zero_le k, by omega⟩]
        rw [TOps.revLoop_getElem? s len 0 hlen (len - 1 - k)]
        rw [if_pos ⟨Nat.zero_le _, by omega⟩]
        congr 1
        omega
      · rw [if_neg (by omega)]
        rw [TOps.revLoop_getElem? s len 0 hlen k]
        rw [if_neg (by omega)]
  · intro s len hl
    simp [TOps.fast_string_reverse, hl]

/-- Closed-instance witness for `C8_reverse_involution`. -/
theorem C8_reverse_involution_witness :
    TOps.fast_string_reverse (TOps.fast_string_reverse (some [1, 2, 3, 4]) 4) 4 =
      some [1, 2, 3, 4] :=
  C8_reverse_involution.1 [1, 2, 3, 4] 4 (by decide)

/-! ## Claim theorems: quicksort (C3) -/

namespace TOps

/-- A swap leaves every position other than the two swapped ones unchanged
(no bounds required). -/
theorem swapIdx_getElem?_ne [Inhabited α] (l : List α) (i j m : Nat)
    (hmi : m ≠ i) (hmj : m ≠ j) : (swapIdx l i j)[m]? = l[m]? := by
  unfold swapIdx
  rw [List.getElem?_set, if_neg (fun h => hmj h.symm)]
  rw [List.getElem?_set, if_neg (fun h => hmi h.symm)]

/-- Replacing an in-bounds entry and consing the removed entry is a
permutation of consing the new entry. -/
theorem cons_set_perm [Inhabited α] : ∀ (t : List α) (j : Nat) (a : α),
    j < t.length → (t.getD j default :: t.set j a).Perm (a :: t) := by
  intro t
  induction t with
  | nil =>
    intro j a hj
    simp at hj
  | cons b t ih =>
    intro j a hj
    cases j with
    | zero =>
      simp only [List.getD_cons_zero, List.set_cons_zero]
      exact List.Perm.swap a b t
    | succ m =>
      simp only [List.getD_cons_succ, List.set_cons_succ]
      have hm : m < t.length := by simpa using hj
      refine List.Perm.trans (List.Perm.swap b (t.getD m default) (t.set m a)) ?_
      refine List.Perm.trans ((ih m a hm).cons b) ?_
      exact List.Perm.swap a b t

/-- A swap of two in-bounds positions is a permutation. -/
theorem swapIdx_perm [Inhabited α] : ∀ (l : List α) (i j : Nat),
    i < l.length → j < l.length → (swapIdx l i j).Perm l := by
  intro l
  induction l with
  | nil =>
    intro i j hi
    simp at hi
  | cons a t ih =>
    intro i j hi hj
    cases i with
    | zero =>
      cases j with
      | zero =>
        show (((a :: t).set 0 ((a :: t).getD 0 default)).set 0
            ((a :: t).getD 0 default)).Perm (a :: t)
        simp
      | succ n =>
        have hn : n < t.length := by simpa using hj
        show (((a :: t).set 0 ((a :: t).getD (n + 1) default)).set (n + 1)
            ((a :: t).getD 0 default)).Perm (a :: t)
        simp only [List.getD_cons_succ, List.getD_cons_zero, List.set_cons_zero,
          List.set_cons_succ]
        exact cons_set_perm t n a hn
    | succ m =>
      have hm : m < t.length := by simpa using hi
      cases j with
      | zero =>
        show (((a :: t).set (m + 1) ((a :: t).getD 0 default)).set 0
            ((a :: t).getD (m + 1) default)).Perm (a :: t)
        simp only [List.getD_cons_succ, List.getD_cons_zero, List.set_cons_succ,
          List.set_cons_zero]
        exact cons_set_perm t m a hm
      | succ n =>
        have hn : n < t.length := by simpa using hj
        show (((a :: t).set (m + 1) ((a :: t).getD (n + 1) default)).set (n + 1)
            ((a :: t).getD (m + 1) default)).Perm (a :: t)
        simp only [List.getD_cons_succ, List.set_cons_succ]
        exact (ih m n hm hn).cons a

/-- The partition loop preserves the length. -/
theorem lomutoLoop_length : ∀ (arr : List Int) (pivot : Int) (k j high : Nat),
    (lomutoLoop arr pivot k j high).1.length = arr.length := by
  intro arr pivot k j high
  induction arr, pivot, k, j, high using lomutoLoop.induct with
  | case1 arr pivot k j high h hle ih =>
    rw [lomutoLoop, if_pos h, if_pos hle]
    rw [ih, swapIdx_length]
  | case2 arr pivot k j high h hle ih =>
    rw [lomutoLoop, if_pos h, if_neg hle]
    exact ih
  | case3 arr pivot k j high h =>
    rw [lomutoLoop, if_neg h]

/-- The partition loop only writes positions in `[k, high)`. -/
theorem lomutoLoop_frame : ∀ (arr : List Int) (pivot : Int) (k j high : Nat),
    k ≤ j → ∀ m, m < k ∨ high ≤ m →
      (lomutoLoop arr pivot k j high).1[m]? = arr[m]? := by
  intro arr pivot k j high
  induction arr, pivot, k, j, high using lomutoLoop.induct with
  | case1 arr pivot k j high h hle ih =>
    intro hkj m hm
    rw [lomutoLoop, if_pos h, if_pos hle]
    rw [ih (by omega) m (by omega)]
    exact swapIdx_getElem?_ne arr k j m (by omega) (by omega)
  | case2 arr pivot k j high h hle ih =>
    intro hkj m hm
    rw [lomutoLoop, if_pos h, if_neg hle]
    exact ih (by omega) m hm
  | case3 arr pivot k j high h =>
    intro hkj m hm
    rw [lomutoLoop, if_neg h]

/-- The partition loop permutes the array. -/
theorem lomutoLoop_perm : ∀ (arr : List Int) (pivot : Int) (k j high : Nat),
    k ≤ j → j ≤ high → high ≤ arr.length →
      (lomutoLoop arr pivot k j high).1.Perm arr := by
  intro arr pivot k j high
  induction arr, pivot, k, j, high using lomutoLoop.induct with
  | case1 arr pivot k j high h hle ih =>
    intro hkj hjh hlen
    rw [lomutoLoop, if_pos h, if_pos hle]
    have hswl : high ≤ (swapIdx arr k j).length := by rw [swapIdx_length]; exact hlen
    exact (ih (by omega) (by omega) hswl).trans
      (swapIdx_perm arr k j (by omega) (by omega))
  | case2 arr pivot k j high h hle ih =>
    intro hkj hjh hlen
    rw [lomutoLoop, if_pos h, if_neg hle]
    exact ih (by omega) (by omega) hlen
  | case3 arr pivot k j high h =>
    intro hkj hjh hlen
    rw [lomutoLoop, if_neg h]

/-- The partition phase preserves the length. -/
theorem lomutoPartition_length (arr : List Int) (low high : Nat) :
    (lomutoPartition arr low high).1.length = arr.length := by
  show ((swapIdx (lomutoLoop arr (arr.getD high default) low low high).1
      (lomutoLoop arr (arr.getD high default) low low high).2 high).length = arr.length)
  rw [swapIdx_length, lomutoLoop_length]

/-- The partition phase only writes positions in `[low, high]`. -/
theorem lomutoPartition_frame (arr : List Int) (low high : Nat) (hlh : low ≤ high) :
    ∀ m, m < low ∨ high < m → (lomutoPartition arr low high).1[m]? = arr[m]? := by
  intro m hm
  have hk1 : low ≤ (lomutoLoop arr (arr.getD high default) low low high).2 :=
    lomutoLoop_le_snd ..
  have hk2 : (lomutoLoop arr (arr.getD high default) low low high).2 ≤ high :=
    lomutoLoop_snd_le _ _ _ _ _ (le_refl _) hlh
  show (swapIdx (lomutoLoop arr (arr.getD high default) low low high).1
      (lomutoLoop arr (arr.getD high default) low low high).2 high)[m]? = arr[m]?
  rw [swapIdx_getElem?_ne _ _ _ m (by omega) (by omega)]
  exact lomutoLoop_frame arr _ low low high (le_refl _) m (by omega)

/-- The partition phase permutes the array. -/
theorem lomutoPartition_perm (arr : List Int) (low high : Nat)
    (hlh : low ≤ high) (hh : high < arr.length) :
    (lomutoPartition arr low high).1.Perm arr := by
  have hk2 : (lomutoLoop arr (arr.getD high default) low low high).2 ≤ high :=
    lomutoLoop_snd_le _ _ _ _ _ (le_refl _) hlh
  have hlen : (lomutoLoop arr (arr.getD high default) low low high).1.length = arr.length :=
    lomutoLoop_length ..
  show (swapIdx (lomutoLoop arr (arr.getD high default) low low high).1
      (lomutoLoop arr (arr.getD high default) low low high).2 high).Perm arr
  exact (swapIdx_perm _ _ _ (by omega) (by omega)).trans
    (lomutoLoop_perm arr _ low low high (le_refl _) hlh (le_of_lt hh))

end TOps

namespace TOps

/-- Default-lookup version of the entry-wise swap description. -/
theorem swapIdx_getD [Inhabited α] (l : List α) (i j m : Nat)
    (hi : i < l.length) (hj : j < l.length) :
    (swapIdx l i j).getD m default =
      if m = j then l.getD i default
      else if m = i then l.getD j default
      else l.getD m default := by
  rw [List.getD_eq_getElem?_getD, swapIdx_getElem? l i j m hi hj]
  split
  · rw [← List.getD_eq_getElem?_getD]
  · split <;> rw [← List.getD_eq_getElem?_getD]

/-- The partition loop moves values around only inside `[low, high]`: any
property of all the values at positions in `[low, high]` is preserved. -/
theorem lomutoLoop_rangeP : ∀ (arr : List Int) (pivot : Int) (k j high : Nat)
    (P : Int → Prop) (low : Nat), low ≤ k → k ≤ j → j ≤ high → high ≤ arr.length →
    (∀ m, low ≤ m → m ≤ high → P (arr.getD m default)) →
    ∀ m, low ≤ m → m ≤ high → P ((lomutoLoop arr pivot k j high).1.getD m default) := by
  intro arr pivot k j high
  induction arr, pivot, k, j, high using lomutoLoop.induct with
  | case1 arr pivot k j high h hle ih =>
    intro P low hlk hkj hjh hlen hP m hm1 hm2
    rw [lomutoLoop, if_pos h, if_pos hle]
    refine ih P low (by omega) (by omega) (by omega)
      (by rw [swapIdx_length]; exact hlen) ?_ m hm1 hm2
    intro m' hm'1 hm'2
    rw [swapIdx_getD arr k j m' (by omega) (by omega)]
    split
    · exact hP k (by omega) (by omega)
    · split
      · exact hP j (by omega) (by omega)
      · exact hP m' hm'1 hm'2
  | case2 arr pivot k j high h hle ih =>
    intro P low hlk hkj hjh hlen hP m hm1 hm2
    rw [lomutoLoop, if_pos h, if_neg hle]
    exact ih P low hlk (by omega) (by omega) hlen hP m hm1 hm2
  | case3 arr pivot k j high h =>
    intro P low hlk hkj hjh hlen hP m hm1 hm2
    rw [lomutoLoop, if_neg h]
    exact hP m hm1 hm2

/-- The Lomuto loop invariant: on exit, positions in `[low, k')` hold values
at most the pivot and positions in `[k', high)` hold values above the pivot,
where `k'` is the returned partition counter. -/
theorem lomutoLoop_inv : ∀ (arr : List Int) (pivot : Int) (k j high : Nat)
    (low : Nat), low ≤ k → k ≤ j → j ≤ high → high ≤ arr.length →
    (∀ m, low ≤ m → m < k → arr.getD m default ≤ pivot) →
    (∀ m, k ≤ m → m < j → pivot < arr.getD m default) →
    (∀ m, low ≤ m → m < (lomutoLoop arr pivot k j high).2 →
        (lomutoLoop arr pivot k j high).1.getD m default ≤ pivot) ∧
    (∀ m, (lomutoLoop arr pivot k j high).2 ≤ m → m < high →
        pivot < (lomutoLoop arr pivot k j high).1.getD m default) := by
  intro arr pivot k j high
  induction arr, pivot, k, j, high using lomutoLoop.induct with
  | case1 arr pivot k j high h hle ih =>
    intro low hlk hkj hjh hlen hA hB
    rw [lomutoLoop, if_pos h, if_pos hle]
    refine ih low (by omega) (by omega) (by omega)
      (by rw [swapIdx_length]; exact hlen) ?_ ?_
    · intro m hm1 hm2
      rw [swapIdx_getD arr k j m (by omega) (by omega)]
      split
      · rename_i hmj
        have hkj2 : k = j := by omega
        rw [hkj2]
        exact hle
      · split
        · exact hle
        · exact hA m hm1 (by omega)
    · intro m hm1 hm2
      rw [swapIdx_getD arr k j m (by omega) (by omega)]
      split
      · exact hB k (le_refl k) (by omega)
      · split
        · omega
        · exact hB m (by omega) (by omega)
  | case2 arr pivot k j high h hle ih =>
    intro low hlk hkj hjh hlen hA hB
    rw [lomutoLoop, if_pos h, if_neg hle]
    refine ih low hlk (by omega) (by omega) hlen hA ?_
    intro m hm1 hm2
    by_cases hmj : m = j
    · rw [hmj]
      exact not_le.mp hle
    · exact hB m hm1 (by omega)
  | case3 arr pivot k j high h =>
    intro low hlk hkj hjh hlen hA hB
    rw [lomutoLoop, if_neg h]
    exact ⟨hA, fun m hm1 hm2 => hB m hm1 (by omega)⟩

/-- Full description of the partition phase: the partition index lies in
`[low, high]`, the value there is the original last element of the range (the
pivot), everything to its left in the range is at most the pivot, everything
to its right is above it. -/
theorem lomutoPartition_spec (arr : List Int) (low high : Nat)
    (hlh : low ≤ high) (hh : high < arr.length) :
    low ≤ (lomutoPartition arr low high).2 ∧
    (lomutoPartition arr low high).2 ≤ high ∧
    (lomutoPartition arr low high).1.getD (lomutoPartition arr low high).2 default
      = arr.getD high default ∧
    (∀ m, low ≤ m → m < (lomutoPartition arr low high).2 →
      (lomutoPartition arr low high).1.getD m default ≤ arr.getD high default) ∧
    (∀ m, (lomutoPartition arr low high).2 < m → m ≤ high →
      arr.getD high default < (lomutoPartition arr low high).1.getD m default) := by
  have hk1 : low ≤ (lomutoLoop arr (arr.getD high default) low low high).2 :=
    lomutoLoop_le_snd ..
  have hk2 : (lomutoLoop arr (arr.getD high default) low low high).2 ≤ high :=
    lomutoLoop_snd_le _ _ _ _ _ (le_refl _) hlh
  have hlen : (lomutoLoop arr (arr.getD high default) low low high).1.length = arr.length :=
    lomutoLoop_length ..
  obtain ⟨invA, invB⟩ := lomutoLoop_inv arr (arr.getD high default) low low high low
    (le_refl _) (le_refl _) hlh (le_of_lt hh)
    (fun m h1 h2 => absurd (h1.trans_lt h2) (lt_irrefl low))
    (fun m h1 h2 => absurd (h1.trans_lt h2) (lt_irrefl low))
  have hframe : (lomutoLoop arr (arr.getD high default) low low high).1.getD high default
      = arr.getD high default := by
    rw [List.getD_eq_getElem?_getD, List.getD_eq_getElem?_getD,
      lomutoLoop_frame arr _ low low high (le_refl _) high (Or.inr (le_refl _))]
  refine ⟨hk1, hk2, ?_, ?_, ?_⟩
  · show (swapIdx (lomutoLoop arr (arr.getD high default) low low high).1
        (lomutoLoop arr (arr.getD high default) low low high).2 high).getD
        (lomutoLoop arr (arr.getD high default) low low high).2 default
      = arr.getD high default
    rw [swapIdx_getD _ _ _ _ (by omega) (by omega)]
    split
    · rename_i hEq
      rw [hEq]
      exact hframe
    · rw [if_pos rfl]
      exact hframe
  · intro m hm1 hm2
    show (swapIdx (lomutoLoop arr (arr.getD high default) low low high).1
        (lomutoLoop arr (arr.getD high default) low low high).2 high).getD m default
      ≤ arr.getD high default
    have hm2' : m < (lomutoLoop arr (arr.getD high default) low low high).2 := hm2
    rw [swapIdx_getD _ _ _ _ (by omega) (by omega), if_neg (by omega), if_neg (by omega)]
    exact invA m hm1 hm2'
  · intro m hm1 hm2
    show arr.getD high default
      < (swapIdx (lomutoLoop arr (arr.getD high default) low low high).1
        (lomutoLoop arr (arr.getD high default) low low high).2 high).getD m default
    have hm1' : (lomutoLoop arr (arr.getD high default) low low high).2 < m := hm1
    rw [swapIdx_getD _ _ _ _ (by omega) (by omega)]
    by_cases hmh : m = high
    · rw [if_pos hmh]
      exact invB _ (le_refl _) (by omega)
    · rw [if_neg hmh, if_neg (by omega)]
      exact invB m (by omega) (by omega)

end TOps

namespace TOps

/-- Transfer of `getD` along an equality of optional lookups. -/
theorem getD_eq_of_getElem?_eq [Inhabited α] {l1 l2 : List α} (m : Nat)
    (h : l1[m]? = l2[m]?) : l1.getD m default = l2.getD m default := by
  rw [List.getD_eq_getElem?_getD, List.getD_eq_getElem?_getD, h]

/-- One-step unfolding of `quicksortAux` in the recursive case. -/
theorem quicksortAux_eq_rec (arr : List Int) (low high : Int)
    (h : 0 ≤ low ∧ low < high) :
    quicksortAux arr low high =
      quicksortAux
        (quicksortAux (lomutoPartition arr low.toNat high.toNat).1 low
          (((lomutoPartition arr low.toNat high.toNat).2 : Int) - 1))
        (((lomutoPartition arr low.toNat high.toNat).2 : Int) + 1) high := by
  rw [quicksortAux, dif_pos h]

/-- One-step unfolding of `quicksortAux` in the base case. -/
theorem quicksortAux_eq_base (arr : List Int) (low high : Int)
    (h : ¬(0 ≤ low ∧ low < high)) : quicksortAux arr low high = arr := by
  rw [quicksortAux, dif_neg h]

/-- The quicksort recursion preserves the length. -/
theorem quicksortAux_length : ∀ (arr : List Int) (low high : Int),
    (quicksortAux arr low high).length = arr.length := by
  intro arr low high
  induction arr, low, high using quicksortAux.induct with
  | case1 arr low high h p ih1 ih2 ih3 =>
    have hpdef : p = lomutoPartition arr low.toNat high.toNat := rfl
    rw [hpdef] at ih3
    rw [quicksortAux_eq_rec arr low high h]
    rw [ih3, ih2, lomutoPartition_length]
  | case2 arr low high h =>
    rw [quicksortAux_eq_base arr low high h]

/-- The quicksort recursion only writes positions in `[low, high]`. -/
theorem quicksortAux_frame : ∀ (arr : List Int) (low high : Int) (m : Nat),
    ((m : Int) < low ∨ high < (m : Int)) →
      (quicksortAux arr low high)[m]? = arr[m]? := by
  intro arr low high
  induction arr, low, high using quicksortAux.induct with
  | case1 arr low high h p ih1 ih2 ih3 =>
    intro m hm
    have hpdef : p = lomutoPartition arr low.toNat high.toNat := rfl
    rw [hpdef] at ih3
    rw [quicksortAux_eq_rec arr low high h]
    have hl : ((low.toNat : Nat) : Int) = low := Int.toNat_of_nonneg h.1
    have hh2 : ((high.toNat : Nat) : Int) = high := Int.toNat_of_nonneg (by omega)
    have hk1 : low.toNat ≤ (lomutoPartition arr low.toNat high.toNat).2 :=
      lomutoLoop_le_snd ..
    have hk2 : (lomutoPartition arr low.toNat high.toNat).2 ≤ high.toNat :=
      lomutoLoop_snd_le _ _ _ _ _ (le_refl _) (by omega)
    rw [ih3 m (by omega)]
    rw [ih2 m (by omega)]
    exact lomutoPartition_frame arr low.toNat high.toNat (by omega) m (by omega)
  | case2 arr low high h =>
    intro m hm
    rw [quicksortAux_eq_base arr low high h]

/-- The quicksort recursion permutes the array. -/
theorem quicksortAux_perm : ∀ (arr : List Int) (low high : Int),
    high < (arr.length : Int) → (quicksortAux arr low high).Perm arr := by
  intro arr low high
  induction arr, low, high using quicksortAux.induct with
  | case1 arr low high h p ih1 ih2 ih3 =>
    intro hlen
    have hpdef : p = lomutoPartition arr low.toNat high.toNat := rfl
    rw [hpdef] at ih3
    rw [quicksortAux_eq_rec arr low high h]
    have hl : ((low.toNat : Nat) : Int) = low := Int.toNat_of_nonneg h.1
    have hh2 : ((high.toNat : Nat) : Int) = high := Int.toNat_of_nonneg (by omega)
    have hk2 : (lomutoPartition arr low.toNat high.toNat).2 ≤ high.toNat :=
      lomutoLoop_snd_le _ _ _ _ _ (le_refl _) (by omega)
    have plen : (lomutoPartition arr low.toNat high.toNat).1.length = arr.length :=
      lomutoPartition_length ..
    have hp : (lomutoPartition arr low.toNat high.toNat).1.Perm arr :=
      lomutoPartition_perm arr low.toNat high.toNat (by omega) (by omega)
    have hperm1 := ih2 (by rw [plen]; omega)
    have hs1len : (quicksortAux (lomutoPartition arr low.toNat high.toNat).1 low
        (((lomutoPartition arr low.toNat high.toNat).2 : Int) - 1)).length = arr.length := by
      rw [quicksortAux_length, plen]
    have hperm2 := ih3 (by rw [hs1len]; omega)
    exact hperm2.trans (hperm1.trans hp)
  | case2 arr low high h =>
    intro hlen
    rw [quicksortAux_eq_base arr low high h]

/-- The partition phase moves values around only inside `[low, high]`. -/
theorem lomutoPartition_rangeP (arr : List Int) (low high : Nat)
    (hlh : low ≤ high) (hh : high < arr.length) (P : Int → Prop)
    (hP : ∀ m, low ≤ m → m ≤ high → P (arr.getD m default)) :
    ∀ m, low ≤ m → m ≤ high → P ((lomutoPartition arr low high).1.getD m default) := by
  intro m hm1 hm2
  have hk1 : low ≤ (lomutoLoop arr (arr.getD high default) low low high).2 :=
    lomutoLoop_le_snd ..
  have hk2 : (lomutoLoop arr (arr.getD high default) low low high).2 ≤ high :=
    lomutoLoop_snd_le _ _ _ _ _ (le_refl _) hlh
  have hlen : (lomutoLoop arr (arr.getD high default) low low high).1.length = arr.length :=
    lomutoLoop_length ..
  have hloop := lomutoLoop_rangeP arr (arr.getD high default) low low high P low
    (le_refl _) (le_refl _) hlh (le_of_lt hh) hP
  show P ((swapIdx (lomutoLoop arr (arr.getD high default) low low high).1
      (lomutoLoop arr (arr.getD high default) low low high).2 high).getD m default)
  rw [swapIdx_getD _ _ _ _ (by omega) (by omega)]
  split
  · exact hloop _ hk1 hk2
  · split
    · exact hloop high hlh (le_refl _)
    · exact hloop m hm1 hm2

end TOps

namespace TOps

/-- The quicksort recursion moves values around only inside `[low, high]`: any property
of all the values at positions in the range is preserved. -/
theorem quicksortAux_rangeP : ∀ (arr : List Int) (low high : Int) (P : Int → Prop),
    high < (arr.length : Int) →
    (∀ m : Nat, low ≤ (m : Int) → (m : Int) ≤ high → P (arr.getD m default)) →
    ∀ m : Nat, low ≤ (m : Int) → (m : Int) ≤ high →
      P ((quicksortAux arr low high).getD m default) := by
  intro arr low high
  induction arr, low, high using quicksortAux.induct with
  | case1 arr low high h p ih1 ih2 ih3 =>
    intro P hlen hP m hm1 hm2
    have hpdef : p = lomutoPartition arr low.toNat high.toNat := rfl
    rw [hpdef] at ih3
    rw [quicksortAux_eq_rec arr low high h]
    have hl : ((low.toNat : Nat) : Int) = low := Int.toNat_of_nonneg h.1
    have hh2 : ((high.toNat : Nat) : Int) = high := Int.toNat_of_nonneg (by omega)
    have hk1 : low.toNat ≤ (lomutoPartition arr low.toNat high.toNat).2 :=
      lomutoLoop_le_snd ..
    have hk2 : (lomutoPartition arr low.toNat high.toNat).2 ≤ high.toNat :=
      lomutoLoop_snd_le _ _ _ _ _ (le_refl _) (by omega)
    have plen : (lomutoPartition arr low.toNat high.toNat).1.length = arr.length :=
      lomutoPartition_length ..
    have hPp : ∀ m' : Nat, low ≤ (m' : Int) → (m' : Int) ≤ high →
        P ((lomutoPartition arr low.toNat high.toNat).1.getD m' default) := by
      intro m' h1 h2
      exact lomutoPartition_rangeP arr low.toNat high.toNat (by omega) (by omega) P
        (fun m'' hh1 hh1b => hP m'' (by omega) (by omega)) m' (by omega) (by omega)
    have hs1len : (quicksortAux (lomutoPartition arr low.toNat high.toNat).1 low
        (((lomutoPartition arr low.toNat high.toNat).2 : Int) - 1)).length = arr.length := by
      rw [quicksortAux_length, plen]
    have hinner : ∀ m' : Nat, low ≤ (m' : Int) → (m' : Int) ≤ high →
        P ((quicksortAux (lomutoPartition arr low.toNat high.toNat).1 low
          (((lomutoPartition arr low.toNat high.toNat).2 : Int) - 1)).getD m' default) := by
      intro m' h1 h2
      by_cases hmk : (m' : Int) ≤ ((lomutoPartition arr low.toNat high.toNat).2 : Int) - 1
      · exact ih2 P (by rw [plen]; omega)
          (fun m'' hh1 hh1b => hPp m'' hh1 (by omega)) m' h1 hmk
      · rw [getD_eq_of_getElem?_eq m' (quicksortAux_frame _ low _ m' (Or.inr (by omega)))]
        exact hPp m' h1 h2
    by_cases hmk2 : ((lomutoPartition arr low.toNat high.toNat).2 : Int) + 1 ≤ (m : Int)
    · exact ih3 P (by rw [hs1len]; omega)
        (fun m'' hh1 hh1b => hinner m'' (by omega) hh1b) m hmk2 hm2
    · rw [getD_eq_of_getElem?_eq m (quicksortAux_frame _ _ high m (Or.inl (by omega)))]
      exact hinner m hm1 hm2
  | case2 arr low high h =>
    intro P hlen hP m hm1 hm2
    rw [quicksortAux_eq_base arr low high h]
    exact hP m hm1 hm2

/-- The quicksort recursion sorts the range `[low, high]` (for the calls the library
makes, i.e. with `0 ≤ low` and `high` within the array). -/
theorem quicksortAux_sorted : ∀ (arr : List Int) (low high : Int),
    0 ≤ low → high < (arr.length : Int) →
    sortedRange (quicksortAux arr low high) low high := by
  intro arr low high
  induction arr, low, high using quicksortAux.induct with
  | case2 arr low high h =>
    intro hl0 hlen
    rw [quicksortAux_eq_base arr low high h]
    intro i j hi hij hj
    have hij2 : i = j := by omega
    rw [hij2]
  | case1 arr low high h p ih1 ih2 ih3 =>
    intro hl0 hlen
    have hpdef : p = lomutoPartition arr low.toNat high.toNat := rfl
    rw [hpdef] at ih3
    rw [quicksortAux_eq_rec arr low high h]
    have hl : ((low.toNat : Nat) : Int) = low := Int.toNat_of_nonneg h.1
    have hh2 : ((high.toNat : Nat) : Int) = high := Int.toNat_of_nonneg (by omega)
    have hlhN : low.toNat ≤ high.toNat := by omega
    have hhlN : high.toNat < arr.length := by omega
    obtain ⟨hk1, hk2, hpiv, hleft, hright⟩ :=
      lomutoPartition_spec arr low.toNat high.toNat hlhN hhlN
    have plen : (lomutoPartition arr low.toNat high.toNat).1.length = arr.length :=
      lomutoPartition_length ..
    have hinlen : ((lomutoPartition arr low.toNat high.toNat).2 : Int) - 1 <
        ((lomutoPartition arr low.toNat high.toNat).1.length : Int) := by
      rw [plen]
      omega
    have hs1sorted := ih2 h.1 hinlen
    have hs1len : (quicksortAux (lomutoPartition arr low.toNat high.toNat).1 low
        (((lomutoPartition arr low.toNat high.toNat).2 : Int) - 1)).length = arr.length := by
      rw [quicksortAux_length, plen]
    have houtlen : high < ((quicksortAux (lomutoPartition arr low.toNat high.toNat).1 low
        (((lomutoPartition arr low.toNat high.toNat).2 : Int) - 1)).length : Int) := by
      rw [hs1len]
      omega
    have hs2sorted := ih3 (by omega) houtlen
    have hs1left : ∀ m : Nat, low ≤ (m : Int) →
        (m : Int) ≤ ((lomutoPartition arr low.toNat high.toNat).2 : Int) - 1 →
        (quicksortAux (lomutoPartition arr low.toNat high.toNat).1 low
          (((lomutoPartition arr low.toNat high.toNat).2 : Int) - 1)).getD m default ≤
          arr.getD high.toNat default := by
      intro m h1 h2
      exact quicksortAux_rangeP (lomutoPartition arr low.toNat high.toNat).1 low
        (((lomutoPartition arr low.toNat high.toNat).2 : Int) - 1)
        (fun v => v ≤ arr.getD high.toNat default) hinlen
        (fun m' hh1 hh1b => hleft m' (by omega) (by omega)) m h1 h2
    have hs1frame : ∀ m : Nat, ((lomutoPartition arr low.toNat high.toNat).2 : Int) - 1 < (m : Int) →
        (quicksortAux (lomutoPartition arr low.toNat high.toNat).1 low
          (((lomutoPartition arr low.toNat high.toNat).2 : Int) - 1))[m]? =
          (lomutoPartition arr low.toNat high.toNat).1[m]? :=
      fun m hm => quicksortAux_frame _ low _ m (Or.inr hm)
    have hs2frame : ∀ m : Nat, (m : Int) < ((lomutoPartition arr low.toNat high.toNat).2 : Int) + 1 →
        (quicksortAux (quicksortAux (lomutoPartition arr low.toNat high.toNat).1 low
            (((lomutoPartition arr low.toNat high.toNat).2 : Int) - 1))
          (((lomutoPartition arr low.toNat high.toNat).2 : Int) + 1) high)[m]? =
          (quicksortAux (lomutoPartition arr low.toNat high.toNat).1 low
            (((lomutoPartition arr low.toNat high.toNat).2 : Int) - 1))[m]? :=
      fun m hm => quicksortAux_frame _ _ high m (Or.inl hm)
    have hs2right : ∀ m : Nat, ((lomutoPartition arr low.toNat high.toNat).2 : Int) + 1 ≤ (m : Int) →
        (m : Int) ≤ high →
        arr.getD high.toNat default <
          (quicksortAux (quicksortAux (lomutoPartition arr low.toNat high.toNat).1 low
              (((lomutoPartition arr low.toNat high.toNat).2 : Int) - 1))
            (((lomutoPartition arr low.toNat high.toNat).2 : Int) + 1) high).getD m default := by
      intro m h1 h2
      refine quicksortAux_rangeP _ _ high
        (fun v => arr.getD high.toNat default < v) houtlen ?_ m h1 h2
      intro m' hh1 hh1b
      rw [getD_eq_of_getElem?_eq m' (hs1frame m' (by omega))]
      exact hright m' (by omega) (by omega)
    have hs2left : ∀ m : Nat, low ≤ (m : Int) →
        (m : Int) ≤ ((lomutoPartition arr low.toNat high.toNat).2 : Int) - 1 →
        (quicksortAux (quicksortAux (lomutoPartition arr low.toNat high.toNat).1 low
            (((lomutoPartition arr low.toNat high.toNat).2 : Int) - 1))
          (((lomutoPartition arr low.toNat high.toNat).2 : Int) + 1) high).getD m default ≤
          arr.getD high.toNat default := by
      intro m h1 h2
      rw [getD_eq_of_getElem?_eq m (hs2frame m (by omega))]
      exact hs1left m h1 h2
    have hs2piv : (quicksortAux (quicksortAux (lomutoPartition arr low.toNat high.toNat).1 low
          (((lomutoPartition arr low.toNat high.toNat).2 : Int) - 1))
        (((lomutoPartition arr low.toNat high.toNat).2 : Int) + 1) high).getD
        (lomutoPartition arr low.toNat high.toNat).2 default = arr.getD high.toNat default := by
      rw [getD_eq_of_getElem?_eq _ (hs2frame (lomutoPartition arr low.toNat high.toNat).2 (by omega))]
      rw [getD_eq_of_getElem?_eq _ (hs1frame (lomutoPartition arr low.toNat high.toNat).2 (by omega))]
      exact hpiv
    intro i j hi hij hj
    by_cases hjk : (j : Int) ≤ ((lomutoPartition arr low.toNat high.toNat).2 : Int) - 1
    · rw [getD_eq_of_getElem?_eq i (hs2frame i (by omega)),
        getD_eq_of_getElem?_eq j (hs2frame j (by omega))]
      exact hs1sorted i j hi hij hjk
    · by_cases hik : ((lomutoPartition arr low.toNat high.toNat).2 : Int) + 1 ≤ (i : Int)
      · exact hs2sorted i j hik hij hj
      · have hi_le : (quicksortAux (quicksortAux (lomutoPartition arr low.toNat high.toNat).1 low
              (((lomutoPartition arr low.toNat high.toNat).2 : Int) - 1))
            (((lomutoPartition arr low.toNat high.toNat).2 : Int) + 1) high).getD i default ≤
            arr.getD high.toNat default := by
          by_cases hieq : i = (lomutoPartition arr low.toNat high.toNat).2
          · rw [hieq, hs2piv]
          · exact hs2left i hi (by omega)
        have hj_ge : arr.getD high.toNat default ≤
            (quicksortAux (quicksortAux (lomutoPartition arr low.toNat high.toNat).1 low
              (((lomutoPartition arr low.toNat high.toNat).2 : Int) - 1))
            (((lomutoPartition arr low.toNat high.toNat).2 : Int) + 1) high).getD j default := by
          by_cases hjeq : j = (lomutoPartition arr low.toNat high.toNat).2
          · rw [hjeq, hs2piv]
          · exact le_of_lt (hs2right j (by omega) hj)
        exact le_trans hi_le hj_ge

end TOps

namespace TOps

/-- Default-lookup at an in-bounds index is the entry itself. -/
theorem getD_eq_getElem_of_lt [Inhabited α] (l : List α) (i : Nat)
    (h : i < l.length) : l.getD i default = l[i] := by
  rw [List.getD_eq_getElem?_getD, List.getElem?_eq_getElem h]
  rfl

/-- The full-range quicksort call of `fast_array_sort` sorts the list. -/
theorem quicksort_full_sorted (l : List Int) (_hlen : 2 ≤ l.length) :
    List.Sorted (· ≤ ·) (quicksortAux l 0 ((l.length : Int) - 1)) := by
  have hs := quicksortAux_sorted l 0 ((l.length : Int) - 1) (le_refl 0) (by omega)
  have hql : (quicksortAux l 0 ((l.length : Int) - 1)).length = l.length :=
    quicksortAux_length ..
  refine List.pairwise_iff_getElem.mpr ?_
  intro i j hi hj hij
  have hgd := hs i j (by omega) (by omega) (by omega)
  rwa [getD_eq_getElem_of_lt _ i hi, getD_eq_getElem_of_lt _ j hj] at hgd

/-- Lists of length at most one are sorted. -/
theorem sorted_of_length_le_one (l : List Int) (h : l.length ≤ 1) :
    List.Sorted (· ≤ ·) l := by
  match l with
  | [] => exact List.sorted_nil
  | [a] => exact List.sorted_singleton a
  | a :: b :: t => simp at h

/-- On spans shorter than `2^31` the narrowed index expression
`(int)len - 1` of `fast_array_sort` is exact. -/
theorem sortHigh_eq_of_lt (l : List Int) (h : l.length < 2 ^ 31) :
    wrap32 (wrap32 (l.length : Int) - 1) = (l.length : Int) - 1 := by
  unfold wrap32
  omega

/-- Sorting a non-null span of in-`int`-range length returns a sorted
permutation of it. -/
theorem fast_array_sort_some_spec (l : List Int) (hl : l.length < 2 ^ 31) :
    ∃ r, fast_array_sort (some l) = some r ∧ List.Sorted (· ≤ ·) r ∧ r.Perm l := by
  by_cases h : l.length ≤ 1
  · exact ⟨l, by simp [fast_array_sort, h], sorted_of_length_le_one l h,
      List.Perm.refl l⟩
  · refine ⟨quicksortAux l 0 ((l.length : Int) - 1), ?_,
      quicksort_full_sorted l (by omega), quicksortAux_perm l 0 _ (by omega)⟩
    simp [fast_array_sort, h, sortHigh_eq_of_lt l hl]

/-- Swapping a position with itself is the identity. -/
theorem swapIdx_self [Inhabited α] (l : List α) (j : Nat) : swapIdx l j j = l := by
  apply List.ext_getElem?
  intro m
  unfold swapIdx
  rw [List.getElem?_set, List.getElem?_set]
  by_cases hjm : j = m
  · subst hjm
    rw [if_pos rfl]
    by_cases hjl : j < l.length
    · rw [if_pos (by simpa using hjl)]
      rw [List.getD_eq_getElem?_getD, List.getElem?_eq_getElem hjl]
      rfl
    · rw [if_neg (by simpa using hjl)]
      exact (List.getElem?_eq_none (by omega)).symm
  · rw [if_neg hjm, if_neg hjm]

/-- On a range whose values are all at most the pivot, the partition loop
swaps every element with itself and returns the array unchanged, with the
counter at `high`. -/
theorem lomutoLoop_sorted_id : ∀ (arr : List Int) (pivot : Int) (k j high : Nat),
    k = j → j ≤ high →
    (∀ m, j ≤ m → m < high → arr.getD m default ≤ pivot) →
    lomutoLoop arr pivot k j high = (arr, high) := by
  intro arr pivot k j high
  induction arr, pivot, k, j, high using lomutoLoop.induct with
  | case1 arr pivot k j high h hle ih =>
    intro hkj hjh hs
    subst hkj
    rw [lomutoLoop, if_pos h, if_pos hle]
    rw [swapIdx_self] at ih ⊢
    exact ih rfl (by omega) (fun m hm1 hm2 => hs m (by omega) hm2)
  | case2 arr pivot k j high h hle ih =>
    intro hkj hjh hs
    exact absurd (hs j (le_refl j) h) hle
  | case3 arr pivot k j high h =>
    intro hkj hjh hs
    rw [lomutoLoop, if_neg h]
    have hk : k = high := by omega
    rw [hk]

/-- On an already-sorted range the partition phase is the identity and
returns `high` as the partition index. -/
theorem lomutoPartition_sorted_id (arr : List Int) (low high : Nat)
    (hlh : low ≤ high)
    (hs : ∀ m, low ≤ m → m < high → arr.getD m default ≤ arr.getD high default) :
    lomutoPartition arr low high = (arr, high) := by
  have hloop : lomutoLoop arr (arr.getD high default) low low high = (arr, high) :=
    lomutoLoop_sorted_id arr _ low low high rfl hlh hs
  show (swapIdx (lomutoLoop arr (arr.getD high default) low low high).1
      (lomutoLoop arr (arr.getD high default) low low high).2 high,
    (lomutoLoop arr (arr.getD high default) low low high).2) = (arr, high)
  rw [hloop]
  show (swapIdx arr high high, high) = (arr, high)
  rw [swapIdx_self]

/-- The quicksort recursion is the identity on a range it has already
sorted. -/
theorem quicksortAux_sorted_id : ∀ (arr : List Int) (low high : Int),
    high < (arr.length : Int) → sortedRange arr low high →
    quicksortAux arr low high = arr := by
  intro arr low high
  induction arr, low, high using quicksortAux.induct with
  | case2 arr low high h =>
    intro hlen hs
    exact quicksortAux_eq_base arr low high h
  | case1 arr low high h p ih1 ih2 ih3 =>
    intro hlen hs
    have hpdef : p = lomutoPartition arr low.toNat high.toNat := rfl
    rw [hpdef] at ih3
    have hl : ((low.toNat : Nat) : Int) = low := Int.toNat_of_nonneg h.1
    have hh2 : ((high.toNat : Nat) : Int) = high := Int.toNat_of_nonneg (by omega)
    have hpart : lomutoPartition arr low.toNat high.toNat = (arr, high.toNat) := by
      refine lomutoPartition_sorted_id arr low.toNat high.toNat (by omega) ?_
      intro m hm1 hm2
      exact hs m high.toNat (by omega) (by omega) (by omega)
    rw [quicksortAux_eq_rec arr low high h, hpart]
    have hinner : quicksortAux arr low ((high.toNat : Int) - 1) = arr := by
      rw [hpart] at ih2
      dsimp only at ih2
      exact ih2 (by omega) (fun i j hi hij hj => hs i j hi hij (by omega))
    show quicksortAux (quicksortAux arr low ((high.toNat : Int) - 1))
        ((high.toNat : Int) + 1) high = arr
    rw [hinner]
    exact quicksortAux_eq_base arr _ high (by omega)

/-- The narrowed index expression of `fast_array_sort` is always below the
length, so the quicksort call always leaves its result sorted on the whole
range it visited. -/
theorem sortHigh_lt_length (l : List Int) (h2 : 2 ≤ l.length) :
    wrap32 (wrap32 (l.length : Int) - 1) < (l.length : Int) := by
  unfold wrap32
  omega

/-- Sorting is idempotent, for every input span (on over-long spans the
narrowed range is re-sorted to the same contents). -/
theorem fast_array_sort_idem (x : Option (List Int)) :
    fast_array_sort (fast_array_sort x) = fast_array_sort x := by
  match x with
  | none => rfl
  | some l =>
    by_cases h1 : l.length ≤ 1
    · simp [fast_array_sort, h1]
    · have hr : fast_array_sort (some l) =
          some (quicksortAux l 0 (wrap32 (wrap32 (l.length : Int) - 1))) := by
        simp [fast_array_sort, h1]
      have hH : wrap32 (wrap32 (l.length : Int) - 1) < (l.length : Int) :=
        sortHigh_lt_length l (by omega)
      have hlen2 : (quicksortAux l 0 (wrap32 (wrap32 (l.length : Int) - 1))).length
          = l.length := quicksortAux_length ..
      have hsorted := quicksortAux_sorted l 0 (wrap32 (wrap32 (l.length : Int) - 1))
        (le_refl 0) hH
      have h2 : ¬ (quicksortAux l 0 (wrap32 (wrap32 (l.length : Int) - 1))).length ≤ 1 := by
        rw [hlen2]
        exact h1
      rw [hr]
      have houter : fast_array_sort
          (some (quicksortAux l 0 (wrap32 (wrap32 (l.length : Int) - 1)))) =
          some (quicksortAux (quicksortAux l 0 (wrap32 (wrap32 (l.length : Int) - 1))) 0
            (wrap32 (wrap32 ((quicksortAux l 0
              (wrap32 (wrap32 (l.length : Int) - 1))).length : Int) - 1))) := by
        simp [fast_array_sort, h2]
      rw [houter, hlen2]
      congr 1
      exact quicksortAux_sorted_id _ 0 _ (by rw [hlen2]; exact hH) hsorted

/-- Unfolding of `fast_array_sort` on a non-null span longer than one. -/
theorem fast_array_sort_eq_of_not_le (l : List Int) (h : ¬ l.length ≤ 1) :
    fast_array_sort (some l) =
      some (quicksortAux l 0 (wrap32 (wrap32 (l.length : Int) - 1))) := by
  simp [fast_array_sort, h]

end TOps

/-- C3 counterexample: for a span of length `2^31 + 2` the `size_t` length
narrows to the negative `int` value `2 - 2^31`, the quicksort guard
`low < high` fails, and the span `[1, 0, 0, ...]` is returned unchanged — and
it is not non-decreasing. -/
theorem C3_counterexample :
    TOps.fast_array_sort (some (1 :: 0 :: List.replicate (2 ^ 31) (0 : Int))) =
      some (1 :: 0 :: List.replicate (2 ^ 31) (0 : Int)) ∧
    ¬ List.Sorted (· ≤ ·) (1 :: 0 :: List.replicate (2 ^ 31) (0 : Int)) := by
  have hlen : (1 :: 0 :: List.replicate (2 ^ 31) (0 : Int)).length = 2 ^ 31 + 2 := by
    rw [List.length_cons, List.length_cons, List.length_replicate]
  constructor
  · rw [TOps.fast_array_sort_eq_of_not_le _ (by rw [hlen]; norm_num)]
    rw [hlen]
    rw [TOps.quicksortAux_eq_base _ _ _ (by unfold wrap32; norm_num)]
  · intro hsorted
    have h10 : (1 : Int) ≤ 0 :=
      (List.sorted_cons.mp hsorted).1 0
        (List.mem_cons_self 0 (List.replicate (2 ^ 31) (0 : Int)))
    exact absurd h10 (by norm_num)

/-- C3 (amended): for every non-null span of length below `2^31` (so that the
`(int)len` narrowing in `quicksort(arr, 0, (int)len - 1)` is exact),
`fast_array_sort` leaves the array non-decreasing with the same multiset of
elements; spans of length ≤ 1 are left untouched; sorting is idempotent on
every input; and the partition phase places the last element of each
partition range (the pivot) at the returned partition index.  Longer spans
are not sorted: the narrowed length wraps and, e.g. at length `2^31 + 2`, the
guard fails and the span is returned unchanged. -/
theorem C3_sort_spec :
    (∀ l : List Int, l.length < 2 ^ 31 →
        ∃ r, TOps.fast_array_sort (some l) = some r ∧
          List.Sorted (· ≤ ·) r ∧ r.Perm l) ∧
    (∀ l : List Int, l.length ≤ 1 → TOps.fast_array_sort (some l) = some l) ∧
    TOps.fast_array_sort none = none ∧
    (∀ x : Option (List Int),
        TOps.fast_array_sort (TOps.fast_array_sort x) = TOps.fast_array_sort x) ∧
    (∀ (arr : List Int) (low high : Nat), low ≤ high → high < arr.length →
        (TOps.lomutoPartition arr low high).1.getD
            (TOps.lomutoPartition arr low high).2 default
          = arr.getD high default) := by
  refine ⟨TOps.fast_array_sort_some_spec, ?_, rfl, TOps.fast_array_sort_idem, ?_⟩
  · intro l h
    simp [TOps.fast_array_sort, h]
  · intro arr low high h1 h2
    exact (TOps.lomutoPartition_spec arr low high h1 h2).2.2.1

/-- Closed-instance witness for `C3_sort_spec`. -/
theorem C3_sort_spec_witness :
    (TOps.fast_array_sort (some [2, 1])).isSome = true ∧
    TOps.fast_array_sort (some [5]) = some [5] ∧
    (TOps.lomutoPartition [3, 1, 2] 0 2).1.getD
        (TOps.lomutoPartition [3, 1, 2] 0 2).2 default
      = ([3, 1, 2] : List Int).getD 2 default := by
  refine ⟨?_, C3_sort_spec.2.1 [5] (by decide),
    C3_sort_spec.2.2.2.2 [3, 1, 2] 0 2 (by decide) (by decide)⟩
  obtain ⟨r, hr, -, -⟩ := C3_sort_spec.1 [2, 1] (by norm_num)
  rw [hr]
  rfl
